import Mathlib

/-!
Verification development for `mbf_genomes.gene` (file `src/mbf_genomes/gene.py`).

The module computes derived genomic-interval structures: `merge_exons` (a
sweep-line merge of `(start, stop)` pairs), `_intron_intervals_from_exons`
(complementary gaps of an exon list inside a gene's span), and the `Gene` /
`Transcript` record types with their derived properties.

Coordinates are Python integers, embedded as `Int`.  Fallible computations
(Python exceptions: `ValueError`, `IndexError`, numpy broadcast errors) are
embedded as `Except String`.
-/

deriving instance DecidableEq for Except

namespace MbfGenomes

/-- Membership of a point in the union of half-open intervals `[start, stop)`
of a list of `(start, stop)` pairs. -/
def inIntervals (l : List (Int × Int)) (x : Int) : Prop :=
  ∃ p ∈ l, p.1 ≤ x ∧ x < p.2

instance (l : List (Int × Int)) (x : Int) : Decidable (inIntervals l x) := by
  unfold inIntervals; infer_instance

/-- Lexicographic order on `(start, stop)` pairs: the order `list.sort()` uses
on Python tuples. -/
def pairLE (a b : Int × Int) : Prop :=
  a.1 < b.1 ∨ (a.1 = b.1 ∧ a.2 ≤ b.2)

instance : DecidableRel pairLE := fun a b => by
  unfold pairLE; infer_instance

instance : IsTotal (Int × Int) pairLE :=
  ⟨by intro a b; unfold pairLE; omega⟩

instance : IsTrans (Int × Int) pairLE :=
  ⟨by intro a b c; unfold pairLE; omega⟩

/-- `exons.sort()` / `sorted(exons)`: Python's stable sort of a list of
`(start, stop)` tuples under lexicographic tuple comparison.  `pairLE` is
antisymmetric, so every sort of a list agrees with this one; a structurally
recursive sort is used so that concrete inputs evaluate. -/
def sortPairs (l : List (Int × Int)) : List (Int × Int) :=
  List.insertionSort pairLE l

/-- The sweep loop of `merge_exons` (gene.py lines 21-39), embedded by explicit
state passing.  The loop walks the sorted `starts` / `stops` arrays with state
`last_stop` and `last_row`; the only array cells it ever reads back or marks in
`keep` are those of row `last_row`, the row processed in the previous
iteration, so that row's current `(start, stop)` value is carried as `prev`
(`none` encodes `last_row = None`) and the rows finalised by `keep[last_row] =
True` accumulate in index order in `kept`.

When `starts[ii] < last_stop` holds while `last_row` is still `None` (only
possible for a first sorted start below the sentinel `last_stop = 0`, i.e. a
negative start), the source executes `starts[ii] = starts[None]`, a numpy
assignment of an array of shape `(1, n)` into a scalar cell, which fails for
the lists of length at least 2 used in the theorems below; it is embedded as
an error. -/
def mergeLoop : List (Int × Int) → Option (Int × Int) → Int → List (Int × Int) →
    Except String (List (Int × Int))
  | [], prev, _, kept =>
    match prev with
    | none => .ok kept
    | some p => .ok (kept ++ [p])
  | (s, e) :: rest, prev, last_stop, kept =>
    if s < last_stop then
      match prev with
      | none => .error "ValueError: could not broadcast input array into a scalar element"
      | some (ps, _) =>
        let e2 := max e last_stop
        mergeLoop rest (some (ps, e2)) (if e2 > last_stop then e2 else last_stop) kept
    else
      let kept2 := match prev with
        | none => kept
        | some p => kept ++ [p]
      mergeLoop rest (some (s, e)) (if e > last_stop then e else last_stop) kept2

/-- `merge_exons` (gene.py lines 7-40): sort the exon list in place, sweep it,
and return the kept rows as the pair of column lists `(starts[keep],
stops[keep])`. -/
def merge_exons (exons : List (Int × Int)) : Except String (List Int × List Int) :=
  (mergeLoop (sortPairs exons) none 0 []).map fun kept =>
    (kept.map Prod.fst, kept.map Prod.snd)

/-- The contents of the caller's list after `merge_exons` returns: line 18
(`exons.sort()`) sorts the caller's list in place, and nothing else mutates
it (the numpy arrays built afterwards are fresh). -/
def merge_exons_post (exons : List (Int × Int)) : List (Int × Int) :=
  sortPairs exons

/-- Message of the `ValueError("inverted exon")` raised at gene.py line 61. -/
def invertedExonMsg : String := "inverted exon"

/-- Message of the `ValueError` raised at gene.py lines 64-68 when the
non-merging path meets an exon starting before the cursor. -/
def overlappingExonsMsg : String :=
  "_intron_intervals_from_exons saw exons that need merging by setting merge=True, but merge was False - should not happen?"

/-- The `for exon_start, exon_stop in exons` loop of
`_intron_intervals_from_exons` (gene.py lines 59-79), with the cursor
`intron_start` and the accumulating result `res` as explicit state, followed
by the trailing-gap append of lines 77-78. -/
def intronLoop (gene_stop : Int) : List (Int × Int) → Int → List (Int × Int) →
    Except String (List (Int × Int))
  | [], intron_start, res =>
    if intron_start < gene_stop then .ok (res ++ [(intron_start, gene_stop)]) else .ok res
  | (exon_start, exon_stop) :: rest, intron_start, res =>
    if exon_stop < exon_start then .error invertedExonMsg
    else if intron_start ≠ exon_start then
      if intron_start > exon_start then .error overlappingExonsMsg
      else intronLoop gene_stop rest exon_stop (res ++ [(intron_start, exon_start)])
    else intronLoop gene_stop rest exon_stop res

/-- One sweep step of the merged-rows model below: absorb rows that strictly
overlap the open run, emit the run otherwise. -/
def mergeRowsSweep : List (Int × Int) → Int × Int → List (Int × Int)
  | [], cur => [cur]
  | (s, e) :: rest, cur =>
    if s < cur.2 then mergeRowsSweep rest (cur.1, max cur.2 e)
    else cur :: mergeRowsSweep rest (s, e)

/-- Modelled from the spec: `merge_intervals` (imported from
`mbf_genomes.intervals`, which is not among the sources; the spec treats it as
an external collaborator) — "given a table of `(chromosome, start, stop)`
rows, return a table of non-overlapping merged rows, stable-sorted by start".
All call sites here pass a single chromosome, so the table is modelled as the
list of its `(start, stop)` rows: sort by start and merge overlapping rows. -/
def merge_intervals (rows : List (Int × Int)) : List (Int × Int) :=
  match sortPairs rows with
  | [] => []
  | p :: rest => mergeRowsSweep rest p

/-- `_intron_intervals_from_exons` (gene.py lines 43-79).  With `merge=True`
the source first builds `zip_exons = list(zip(*exons))` and indexes
`zip_exons[0]`; on an empty exon list that raises `IndexError` (embedded as an
error) and otherwise the exon list is replaced by its `merge_intervals`
merge.  Then the gap loop `intronLoop` runs with cursor `gene_start`. -/
def _intron_intervals_from_exons (exons : List (Int × Int)) (gene_start gene_stop : Int)
    (merge : Bool := false) : Except String (List (Int × Int)) :=
  if merge then
    if exons.isEmpty then .error "IndexError: list index out of range"
    else intronLoop gene_stop (merge_intervals exons) gene_start []
  else intronLoop gene_stop exons gene_start []

/-- The scalar fields of a `Gene` (gene.py lines 82-91 without `transcripts`).
A `Transcript` holds a back-reference to its owning gene; the Python object
graph is cyclic there, so the back-reference is embedded as a copy of the
gene's scalar fields (the only fields `Transcript` code reads). -/
structure GeneData where
  gene_stable_id : String
  name : String
  chr : String
  start : Int
  stop : Int
  strand : Int
  biotype : String

/-- `Transcript` (gene.py lines 185-197). -/
structure Transcript where
  transcript_stable_id : String
  gene_stable_id : String
  name : String
  chr : String
  start : Int
  stop : Int
  strand : Int
  biotype : String
  exons : List (Int × Int)
  exon_stable_ids : List String
  gene : GeneData

/-- `Gene` (gene.py lines 82-91): the scalar fields plus the transcript
collection. -/
structure Gene extends GeneData where
  transcripts : List Transcript

/-- `Gene.tss` (gene.py lines 93-95). -/
def Gene.tss (g : Gene) : Int :=
  if g.strand = 1 then g.start else g.stop

/-- `Gene.tes` (gene.py lines 97-99). -/
def Gene.tes (g : Gene) : Int :=
  if g.strand ≠ 1 then g.start else g.stop

/-- `Gene._exons` (gene.py lines 126-132): concatenate the exon lists of all
transcripts in order. -/
def Gene._exons (g : Gene) : List (Int × Int) :=
  (g.transcripts.map Transcript.exons).flatten

/-- `Gene.exons_merged` (gene.py lines 134-139). -/
def Gene.exons_merged (g : Gene) : Except String (List Int × List Int) :=
  merge_exons g._exons

/-- `Gene.introns` (gene.py lines 101-124): collect all transcripts' exons,
sort, derive introns with `merge=True`, then run the resulting intron rows
through `merge_intervals` once more and return them as `(start, stop)`
tuples. -/
def Gene.introns (g : Gene) : Except String (List (Int × Int)) :=
  (_intron_intervals_from_exons (sortPairs g._exons) g.start g.stop true).map
    fun transcript_introns => merge_intervals transcript_introns

/-- `Transcript.exons_tuples` (gene.py lines 199-201). -/
def Transcript.exons_tuples (t : Transcript) : List (Int × Int) :=
  t.exons

/-- `Transcript.introns` (gene.py lines 203-214): sort this transcript's own
exons and derive introns with `merge=False`, bounded by the owning gene's
`(start, stop)`. -/
def Transcript.introns (t : Transcript) : Except String (List (Int × Int)) :=
  _intron_intervals_from_exons (sortPairs t.exons_tuples) t.gene.start t.gene.stop

/-- Reference description of the intron deriver's output, following the spec
text for sorted non-overlapping exons inside the region: the leading gap
`(region_start, first start)` when `region_start` is below the first start,
one gap `(previous stop, next start)` for each consecutive pair with a gap
between them, and the trailing gap `(last stop, region_stop)` when the last
stop is below `region_stop`. -/
def derivedGapsSpec : Int → Int → List (Int × Int) → List (Int × Int)
  | rs, rstop, [] => if rs < rstop then [(rs, rstop)] else []
  | rs, rstop, (s, e) :: rest =>
    (if rs < s then [(rs, s)] else []) ++ derivedGapsSpec e rstop rest

/-! ### Helper lemmas -/

theorem inIntervals_nil (x : Int) : ¬ inIntervals [] x := by
  simp [inIntervals]

theorem inIntervals_cons (p : Int × Int) (l : List (Int × Int)) (x : Int) :
    inIntervals (p :: l) x ↔ (p.1 ≤ x ∧ x < p.2) ∨ inIntervals l x := by
  simp only [inIntervals, List.mem_cons]
  constructor
  · rintro ⟨q, hq | hq, hx⟩
    · exact Or.inl (hq ▸ hx)
    · exact Or.inr ⟨q, hq, hx⟩
  · rintro (hx | ⟨q, hq, hx⟩)
    · exact ⟨p, Or.inl rfl, hx⟩
    · exact ⟨q, Or.inr hq, hx⟩

theorem inIntervals_of_perm {l₁ l₂ : List (Int × Int)} (h : l₁.Perm l₂) (x : Int) :
    inIntervals l₁ x ↔ inIntervals l₂ x := by
  simp only [inIntervals]
  constructor
  · rintro ⟨p, hp, hx⟩
    exact ⟨p, h.mem_iff.mp hp, hx⟩
  · rintro ⟨p, hp, hx⟩
    exact ⟨p, h.mem_iff.mpr hp, hx⟩

theorem sortPairs_perm (l : List (Int × Int)) : (sortPairs l).Perm l :=
  List.perm_insertionSort pairLE l

theorem sortPairs_sorted (l : List (Int × Int)) : List.Pairwise pairLE (sortPairs l) :=
  List.sorted_insertionSort pairLE l

/-- From lexicographic sortedness, the starts are pairwise ascending. -/
theorem pairwise_fst_of_pairLE {l : List (Int × Int)} (h : List.Pairwise pairLE l) :
    List.Pairwise (fun a b : Int × Int => a.1 ≤ b.1) l :=
  h.imp (fun hab => by unfold pairLE at hab; omega)

/-- In a chain of valid intervals with each stop at most the next start, the
head's stop is at most every later start. -/
theorem chain_head_le_all {a : Int × Int} {l : List (Int × Int)}
    (hv : ∀ p ∈ a :: l, p.1 ≤ p.2)
    (hc : List.Chain' (fun x y : Int × Int => x.2 ≤ y.1) (a :: l)) :
    ∀ b ∈ l, a.2 ≤ b.1 := by
  induction l generalizing a with
  | nil => simp
  | cons b l ih =>
    intro c hcmem
    rw [List.chain'_cons] at hc
    rcases List.mem_cons.mp hcmem with rfl | hcmem
    · exact hc.1
    · have hb : b.1 ≤ b.2 := hv b (by simp)
      have := ih (a := b) (fun p hp => hv p (List.mem_cons_of_mem a hp)) hc.2 c hcmem
      omega

/-- A list of valid intervals in which consecutive intervals do not overlap is
lexicographically sorted. -/
theorem pairwise_pairLE_of_chain {l : List (Int × Int)} (hv : ∀ p ∈ l, p.1 ≤ p.2)
    (hc : List.Chain' (fun a b : Int × Int => a.2 ≤ b.1) l) :
    List.Pairwise pairLE l := by
  induction l with
  | nil => simp
  | cons a l ih =>
    rw [List.pairwise_cons]
    have ha : a.1 ≤ a.2 := hv a (by simp)
    have hstop : ∀ b ∈ l, a.2 ≤ b.1 := chain_head_le_all hv hc
    refine ⟨fun b hb => ?_, ih (fun p hp => hv p (by simp [hp])) hc.tail⟩
    have h1 := hstop b hb
    have h2 : b.1 ≤ b.2 := hv b (by simp [hb])
    unfold pairLE
    omega

/-- Non-overlap of consecutive valid intervals implies ascending starts. -/
theorem chain_fst_of_chain_nonoverlap {l : List (Int × Int)}
    (hv : ∀ p ∈ l, p.1 ≤ p.2)
    (hc : List.Chain' (fun a b : Int × Int => a.2 ≤ b.1) l) :
    List.Chain' (fun a b : Int × Int => a.1 ≤ b.1) l := by
  induction l with
  | nil => simp
  | cons a l ih =>
    cases l with
    | nil => simp
    | cons b l' =>
      rw [List.chain'_cons] at hc ⊢
      have ha : a.1 ≤ a.2 := hv a (by simp)
      exact ⟨by omega, ih (fun p hp => hv p (by simp [hp])) hc.2⟩

/-- Invariant lemma for the sweep loop: started on a valid sorted remainder
with an open run `(ps, pe)`, the loop succeeds and appends to `kept` a block
of finalised runs that starts at `ps`, consists of valid pairwise
non-overlapping intervals, and covers exactly the open run together with the
remaining input. -/
theorem mergeLoop_ok (l : List (Int × Int)) :
    ∀ (ps pe : Int) (kept : List (Int × Int)),
    (∀ p ∈ l, 0 ≤ p.1 ∧ p.1 ≤ p.2) →
    (∀ p ∈ l, ps ≤ p.1) →
    List.Pairwise (fun a b : Int × Int => a.1 ≤ b.1) l →
    0 ≤ ps → ps ≤ pe →
    ∃ e0 out, mergeLoop l (some (ps, pe)) pe kept = .ok (kept ++ (ps, e0) :: out) ∧
      pe ≤ e0 ∧
      (∀ p ∈ (ps, e0) :: out, ps ≤ p.1 ∧ p.1 ≤ p.2) ∧
      List.Chain' (fun a b : Int × Int => a.2 ≤ b.1) ((ps, e0) :: out) ∧
      (∀ x, inIntervals ((ps, e0) :: out) x ↔ (ps ≤ x ∧ x < pe) ∨ inIntervals l x) := by
  induction l with
  | nil =>
    intro ps pe kept _ _ _ h0 hpe
    refine ⟨pe, [], rfl, le_refl _, ?_, by simp, ?_⟩
    · intro p hp
      simp only [List.mem_singleton] at hp
      subst hp
      exact ⟨le_refl _, hpe⟩
    · intro x
      rw [inIntervals_cons]
  | cons q rest ih =>
    obtain ⟨s, e⟩ := q
    intro ps pe kept hv hs hpw h0 hpe
    have hse : s ≤ e := (hv (s, e) (by simp)).2
    have hps : ps ≤ s := hs (s, e) (by simp)
    have hvt : ∀ p ∈ rest, 0 ≤ p.1 ∧ p.1 ≤ p.2 := fun p hp => hv p (by simp [hp])
    by_cases hov : s < pe
    · -- the interval strictly overlaps the open run: it is absorbed
      have hmaxr : pe ≤ max e pe := le_max_right e pe
      have hmaxl : e ≤ max e pe := le_max_left e pe
      have hif : (if max e pe > pe then max e pe else pe) = max e pe := by
        by_cases h : max e pe > pe
        · simp [h]
        · simp only [h, if_false]
          omega
      have hstep : mergeLoop ((s, e) :: rest) (some (ps, pe)) pe kept
          = mergeLoop rest (some (ps, max e pe)) (max e pe) kept := by
        simp only [mergeLoop, if_pos hov]
        rw [hif]
      rw [hstep]
      obtain ⟨e0, out, heq, he0, hval, hch, hcov⟩ :=
        ih ps (max e pe) kept hvt (fun p hp => hs p (by simp [hp])) hpw.of_cons h0
          (le_trans hpe hmaxr)
      have hsplit : ∀ x : Int, (ps ≤ x ∧ x < max e pe) ↔
          (ps ≤ x ∧ x < pe) ∨ (s ≤ x ∧ x < e) := by
        intro x
        rcases max_cases e pe with ⟨hm, hm'⟩ | ⟨hm, hm'⟩ <;> rw [hm] <;> omega
      refine ⟨e0, out, heq, le_trans hmaxr he0, hval, hch, ?_⟩
      intro x
      rw [hcov x, inIntervals_cons, hsplit x, or_assoc]
    · -- the interval starts a new run: the open run is finalised
      have hpes : pe ≤ s := by omega
      have hif : (if e > pe then e else pe) = e := by
        by_cases h : e > pe
        · simp [h]
        · simp only [h, if_false]
          omega
      have hstep : mergeLoop ((s, e) :: rest) (some (ps, pe)) pe kept
          = mergeLoop rest (some (s, e)) e (kept ++ [(ps, pe)]) := by
        simp only [mergeLoop, if_neg hov]
        rw [hif]
      rw [hstep]
      obtain ⟨e0', out', heq, he0', hval, hch, hcov⟩ :=
        ih s e (kept ++ [(ps, pe)]) hvt
          (fun p hp => (List.pairwise_cons.mp hpw).1 p hp) hpw.of_cons
          (le_trans h0 hps) hse
      refine ⟨pe, (s, e0') :: out', by rw [heq, List.append_assoc]; rfl, le_refl _,
        ?_, ?_, ?_⟩
      · intro p hp
        rcases List.mem_cons.mp hp with rfl | hp
        · exact ⟨le_refl _, hpe⟩
        · have := hval p hp
          omega
      · rw [List.chain'_cons]
        exact ⟨hpes, hch⟩
      · intro x
        rw [inIntervals_cons, hcov x, inIntervals_cons]

/-- `merge_exons` on a list of valid intervals with non-negative starts:
it succeeds, and the returned run list is valid, consecutively
non-overlapping, and covers exactly the input's union. -/
theorem merge_exons_runs (exons : List (Int × Int))
    (hv : ∀ p ∈ exons, 0 ≤ p.1 ∧ p.1 ≤ p.2) :
    ∃ out, merge_exons exons = .ok (out.map Prod.fst, out.map Prod.snd) ∧
      (∀ p ∈ out, 0 ≤ p.1 ∧ p.1 ≤ p.2) ∧
      List.Chain' (fun a b : Int × Int => a.2 ≤ b.1) out ∧
      (∀ x, inIntervals out x ↔ inIntervals exons x) := by
  have hperm := sortPairs_perm exons
  have hv' : ∀ p ∈ sortPairs exons, 0 ≤ p.1 ∧ p.1 ≤ p.2 :=
    fun p hp => hv p (hperm.subset hp)
  have hpw := pairwise_fst_of_pairLE (sortPairs_sorted exons)
  cases hsort : sortPairs exons with
  | nil =>
    have hnil : exons = [] := (hsort ▸ hperm).symm.eq_nil
    refine ⟨[], ?_, by simp, by simp, ?_⟩
    · unfold merge_exons
      rw [hsort]
      rfl
    · intro x
      rw [hnil]
  | cons q rest =>
    obtain ⟨s, e⟩ := q
    rw [hsort] at hv' hpw
    have hs0 : 0 ≤ s := (hv' (s, e) (by simp)).1
    have hse : s ≤ e := (hv' (s, e) (by simp)).2
    have hstep : mergeLoop ((s, e) :: rest) none 0 [] = mergeLoop rest (some (s, e)) e [] := by
      simp only [mergeLoop, if_neg (show ¬ s < 0 by omega)]
      rw [show (if e > 0 then e else 0) = e from by omega]
    obtain ⟨e0, out, heq, _, hval, hch, hcov⟩ :=
      mergeLoop_ok rest s e [] (fun p hp => hv' p (by simp [hp]))
        (fun p hp => (List.pairwise_cons.mp hpw).1 p hp) hpw.of_cons hs0 hse
    refine ⟨(s, e0) :: out, ?_, ?_, hch, ?_⟩
    · unfold merge_exons
      rw [hsort, hstep, heq]
      rfl
    · intro p hp
      have := hval p hp
      omega
    · intro x
      have h1 : inIntervals ((s, e) :: rest) x ↔ (s ≤ x ∧ x < e) ∨ inIntervals rest x :=
        inIntervals_cons (s, e) rest x
      rw [hcov x, ← h1, ← hsort]
      exact inIntervals_of_perm hperm x

/-- On an already-merged remainder (consecutive intervals do not overlap,
starting from the open run), the sweep loop keeps every interval unchanged. -/
theorem mergeLoop_already_merged (l : List (Int × Int)) :
    ∀ (ps pe : Int) (kept : List (Int × Int)),
    (∀ p ∈ l, p.1 ≤ p.2) →
    List.Chain' (fun a b : Int × Int => a.2 ≤ b.1) ((ps, pe) :: l) →
    mergeLoop l (some (ps, pe)) pe kept = .ok (kept ++ (ps, pe) :: l) := by
  induction l with
  | nil => intro ps pe kept _ _; rfl
  | cons q rest ih =>
    obtain ⟨s, e⟩ := q
    intro ps pe kept hv hc
    rw [List.chain'_cons] at hc
    have hpes : pe ≤ s := hc.1
    have hse : s ≤ e := hv (s, e) (by simp)
    have hstep : mergeLoop ((s, e) :: rest) (some (ps, pe)) pe kept
        = mergeLoop rest (some (s, e)) e (kept ++ [(ps, pe)]) := by
      simp only [mergeLoop, if_neg (show ¬ s < pe by omega)]
      rw [show (if e > pe then e else pe) = e from by omega]
    rw [hstep, ih s e (kept ++ [(ps, pe)]) (fun p hp => hv p (by simp [hp])) hc.2,
      List.append_assoc]
    rfl

/-- The gap loop on valid, consecutively non-overlapping exons whose first
start is at or after the cursor: it succeeds and appends exactly the gaps
described by `derivedGapsSpec`. -/
theorem intronLoop_ok (gene_stop : Int) (exons : List (Int × Int)) :
    ∀ (cursor : Int) (res : List (Int × Int)),
    (∀ p ∈ exons, p.1 ≤ p.2) →
    (∀ p ∈ exons.head?, cursor ≤ p.1) →
    List.Chain' (fun a b : Int × Int => a.2 ≤ b.1) exons →
    intronLoop gene_stop exons cursor res
      = .ok (res ++ derivedGapsSpec cursor gene_stop exons) := by
  induction exons with
  | nil =>
    intro cursor res _ _ _
    by_cases h : cursor < gene_stop
    · simp [intronLoop, derivedGapsSpec, h]
    · simp [intronLoop, derivedGapsSpec, h]
  | cons q rest ih =>
    obtain ⟨s, e⟩ := q
    intro cursor res hv hhead hc
    have hse : s ≤ e := hv (s, e) (by simp)
    have hcs : cursor ≤ s := hhead (s, e) rfl
    have hc' := List.chain'_cons'.mp hc
    have ihr := fun res0 => ih e res0 (fun p hp => hv p (by simp [hp])) hc'.1 hc'.2
    by_cases heq : cursor = s
    · have hstep : intronLoop gene_stop ((s, e) :: rest) cursor res
          = intronLoop gene_stop rest e res := by
        simp only [intronLoop, if_neg (show ¬ e < s by omega),
          if_neg (show ¬ cursor ≠ s by omega)]
      rw [hstep, ihr res, derivedGapsSpec, if_neg (show ¬ cursor < s by omega)]
      rfl
    · have hstep : intronLoop gene_stop ((s, e) :: rest) cursor res
          = intronLoop gene_stop rest e (res ++ [(cursor, s)]) := by
        simp only [intronLoop, if_neg (show ¬ e < s by omega),
          if_pos (show cursor ≠ s from by omega), if_neg (show ¬ cursor > s by omega)]
      rw [hstep, ihr (res ++ [(cursor, s)]), derivedGapsSpec,
        if_pos (show cursor < s by omega), List.append_assoc]

/-- The gap loop on valid exons whose first start is at or after the cursor
reports the overlapping-exons error exactly when some consecutive pair of
exons overlaps. -/
theorem intronLoop_error_iff (gene_stop : Int) (exons : List (Int × Int)) :
    ∀ (cursor : Int) (res : List (Int × Int)),
    (∀ p ∈ exons, p.1 ≤ p.2) →
    (∀ p ∈ exons.head?, cursor ≤ p.1) →
    (intronLoop gene_stop exons cursor res = .error overlappingExonsMsg ↔
      ¬ List.Chain' (fun a b : Int × Int => a.2 ≤ b.1) exons) := by
  induction exons with
  | nil =>
    intro cursor res _ _
    by_cases h : cursor < gene_stop <;> simp [intronLoop, h]
  | cons q rest ih =>
    obtain ⟨s, e⟩ := q
    intro cursor res hv hhead
    have hse : s ≤ e := hv (s, e) (by simp)
    have hcs : cursor ≤ s := hhead (s, e) rfl
    obtain ⟨res', hstep⟩ : ∃ res', intronLoop gene_stop ((s, e) :: rest) cursor res
        = intronLoop gene_stop rest e res' := by
      by_cases heq : cursor = s
      · exact ⟨res, by simp only [intronLoop, if_neg (show ¬ e < s by omega),
          if_neg (show ¬ cursor ≠ s by omega)]⟩
      · exact ⟨res ++ [(cursor, s)], by simp only [intronLoop,
          if_neg (show ¬ e < s by omega), if_pos (show cursor ≠ s from by omega),
          if_neg (show ¬ cursor > s by omega)]⟩
    rw [hstep]
    cases rest with
    | nil =>
      by_cases h : e < gene_stop <;> simp [intronLoop, h]
    | cons r rest' =>
      obtain ⟨s2, e2⟩ := r
      have hs2e2 : s2 ≤ e2 := hv (s2, e2) (by simp)
      by_cases hov : e ≤ s2
      · rw [ih e res' (fun p hp => hv p (by simp [hp])) (fun p hp => by
          cases hp; exact hov)]
        rw [List.chain'_cons]
        constructor
        · intro h hcontra
          exact h hcontra.2
        · intro h hcontra
          exact h ⟨hov, hcontra⟩
      · have hLHS : intronLoop gene_stop ((s2, e2) :: rest') e res'
            = .error overlappingExonsMsg := by
          simp only [intronLoop, if_neg (show ¬ e2 < s2 by omega),
            if_pos (show e ≠ s2 from by omega), if_pos (show e > s2 by omega)]
        rw [hLHS, List.chain'_cons]
        constructor
        · intro _ hcontra
          exact absurd hcontra.1 (by omega)
        · intro _
          rfl

/-- When the last exon stops short of the region stop, the gap description
contains the trailing gap up to the region stop. -/
theorem derivedGapsSpec_trailing (rstop : Int) (front : List (Int × Int)) :
    ∀ (rs sl el : Int), el < rstop →
    (el, rstop) ∈ derivedGapsSpec rs rstop (front ++ [(sl, el)]) := by
  induction front with
  | nil =>
    intro rs sl el hlt
    simp only [List.nil_append, derivedGapsSpec, if_pos hlt]
    simp
  | cons q rest ih =>
    obtain ⟨s, e⟩ := q
    intro rs sl el hlt
    simp only [List.cons_append, derivedGapsSpec, List.mem_append]
    exact Or.inr (ih e sl el hlt)

/-! ### Example entities used by concrete instantiations -/

/-- A gene record used for concrete instantiations. -/
def exampleGeneData : GeneData :=
  { gene_stable_id := "ENSG01", name := "G1", chr := "1", start := 0, stop := 100,
    strand := 1, biotype := "protein_coding" }

/-- A gene with an empty transcript collection. -/
def emptyGene : Gene :=
  { toGeneData := exampleGeneData, transcripts := [] }

/-- A transcript spanning `[10, 60]` of a gene spanning `[0, 100]`. -/
def exampleTranscript : Transcript :=
  { transcript_stable_id := "ENST01", gene_stable_id := "ENSG01", name := "T1",
    chr := "1", start := 10, stop := 60, strand := 1, biotype := "protein_coding",
    exons := [(10, 20), (50, 60)], exon_stable_ids := ["E1", "E2"],
    gene := exampleGeneData }

/-- A transcript with an empty exon list. -/
def emptyExonTranscript : Transcript :=
  { transcript_stable_id := "ENST02", gene_stable_id := "ENSG01", name := "T2",
    chr := "1", start := 0, stop := 100, strand := 1, biotype := "protein_coding",
    exons := [], exon_stable_ids := [], gene := exampleGeneData }

/-! ### Claim theorems -/

/-- Claim C1, counterexample: the input `[(-10, -5), (1, 2)]` satisfies
`start ≤ stop` for every interval, yet `merge_exons` does not return two
sequences: the sentinel `last_stop = 0` makes the first (negative) sorted
start take the overlap branch while `last_row` is still `None`, and the
numpy assignment `starts[ii] = starts[None]` fails. -/
theorem merge_exons_negative_start_error :
    (∀ p ∈ [((-10 : Int), (-5 : Int)), (1, 2)], p.1 ≤ p.2) ∧
    merge_exons [(-10, -5), (1, 2)]
      = .error "ValueError: could not broadcast input array into a scalar element" := by
  decide

/-- Claim C1 (amended: all interval starts must also be non-negative): for
every input sequence of intervals each satisfying `0 ≤ start ≤ stop`, the
merge operation returns two sequences `(starts, stops)` of the same length
representing non-overlapping intervals sorted ascending by start — no two
consecutive output intervals satisfy `stop_i > start_j` — whose half-open
union equals the half-open union of the input intervals. -/
theorem merge_exons_spec_nonneg (exons : List (Int × Int))
    (hv : ∀ p ∈ exons, 0 ≤ p.1 ∧ p.1 ≤ p.2) :
    ∃ out, merge_exons exons = .ok (out.map Prod.fst, out.map Prod.snd) ∧
      (out.map Prod.fst).length = (out.map Prod.snd).length ∧
      List.Chain' (fun a b : Int × Int => a.2 ≤ b.1) out ∧
      List.Chain' (fun a b : Int × Int => a.1 ≤ b.1) out ∧
      (∀ x, inIntervals out x ↔ inIntervals exons x) := by
  obtain ⟨out, heq, hval, hch, hcov⟩ := merge_exons_runs exons hv
  exact ⟨out, heq, by simp, hch,
    chain_fst_of_chain_nonoverlap (fun p hp => (hval p hp).2) hch, hcov⟩

/-- Claim C1, witness at the input `[(0, 5), (3, 10)]`. -/
theorem merge_exons_spec_nonneg_witness :
    (∀ p ∈ [((0 : Int), (5 : Int)), (3, 10)], 0 ≤ p.1 ∧ p.1 ≤ p.2) ∧
    ∃ out, merge_exons [(0, 5), (3, 10)] = .ok (out.map Prod.fst, out.map Prod.snd) ∧
      (out.map Prod.fst).length = (out.map Prod.snd).length ∧
      List.Chain' (fun a b : Int × Int => a.2 ≤ b.1) out ∧
      List.Chain' (fun a b : Int × Int => a.1 ≤ b.1) out ∧
      (∀ x, inIntervals out x ↔ inIntervals [(0, 5), (3, 10)] x) :=
  ⟨by decide, merge_exons_spec_nonneg [(0, 5), (3, 10)] (by decide)⟩

/-- Claim C4: on a sorted pair of valid non-negative intervals, `merge_exons`
merges the two into one run exactly when the second start is strictly below
the first stop; touching intervals are kept separate.  In particular
`[(0,5),(5,10)]` is returned unchanged and `[(0,5),(3,10)]` collapses to
`[(0,10)]`. -/
theorem merge_exons_touching_vs_overlap :
    (∀ s1 e1 s2 e2 : Int, 0 ≤ s1 → s1 ≤ e1 → 0 ≤ s2 → s2 ≤ e2 →
      pairLE (s1, e1) (s2, e2) →
      merge_exons [(s1, e1), (s2, e2)] =
        if s2 < e1 then .ok ([s1], [max e2 e1]) else .ok ([s1, s2], [e1, e2])) ∧
    merge_exons [(0, 5), (5, 10)] = .ok ([0, 5], [5, 10]) ∧
    merge_exons [(0, 5), (3, 10)] = .ok ([0], [10]) := by
  refine ⟨?_, by decide, by decide⟩
  intro s1 e1 s2 e2 h1 h2 h3 h4 hle
  have hsort : sortPairs [(s1, e1), (s2, e2)] = [(s1, e1), (s2, e2)] := by
    simp only [sortPairs, List.insertionSort, List.orderedInsert, if_pos hle]
  unfold merge_exons
  rw [hsort]
  have hstep1 : mergeLoop [(s1, e1), (s2, e2)] none 0 []
      = mergeLoop [(s2, e2)] (some (s1, e1)) e1 [] := by
    simp only [mergeLoop, if_neg (show ¬ s1 < 0 by omega)]
    rw [show (if e1 > 0 then e1 else 0) = e1 from by omega]
  rw [hstep1]
  by_cases hov : s2 < e1
  · have hstep2 : mergeLoop [(s2, e2)] (some (s1, e1)) e1 []
        = mergeLoop [] (some (s1, max e2 e1))
            (if max e2 e1 > e1 then max e2 e1 else e1) [] := by
      simp only [mergeLoop, if_pos hov]
    rw [hstep2, if_pos hov]
    rfl
  · have hstep2 : mergeLoop [(s2, e2)] (some (s1, e1)) e1 []
        = mergeLoop [] (some (s2, e2)) (if e2 > e1 then e2 else e1) [(s1, e1)] := by
      simp only [mergeLoop, if_neg hov, List.nil_append]
    rw [hstep2, if_neg hov]
    rfl

/-- Claim C4, witness at `(0, 5)` and `(3, 10)`. -/
theorem merge_exons_touching_vs_overlap_witness :
    (0 ≤ (0 : Int) ∧ (0 : Int) ≤ 5 ∧ 0 ≤ (3 : Int) ∧ (3 : Int) ≤ 10 ∧
      pairLE ((0 : Int), (5 : Int)) (3, 10)) ∧
    merge_exons [(0, 5), (3, 10)] =
      (if (3 : Int) < 5 then .ok ([0], [max 10 5]) else .ok ([0, 3], [5, 10])) :=
  ⟨⟨by decide, by decide, by decide, by decide, by decide⟩,
    merge_exons_touching_vs_overlap.1 0 5 3 10 (by decide) (by decide) (by decide)
      (by decide) (by decide)⟩

/-- Claim C5, counterexample: `[(-5, -3), (1, 2)]` is already merged (sorted
ascending, pairwise non-overlapping, every interval valid), yet `merge_exons`
fails on it instead of returning it unchanged, because of the `last_stop = 0`
sentinel. -/
theorem merge_exons_idempotent_counterexample :
    List.Chain' (fun a b : Int × Int => a.2 ≤ b.1) [(-5, -3), (1, 2)] ∧
    (∀ p ∈ [((-5 : Int), (-3 : Int)), (1, 2)], p.1 ≤ p.2) ∧
    merge_exons [(-5, -3), (1, 2)]
      ≠ .ok ([-5, 1], [-3, 2]) := by
  refine ⟨?_, by decide, by decide⟩
  rw [List.chain'_cons]
  exact ⟨by decide, List.chain'_singleton _⟩

/-- Claim C5 (amended: the already-merged interval set must consist of
non-negative intervals): for every interval set that is sorted ascending,
pairwise non-overlapping and contained in the non-negative coordinates,
applying the merge operation returns the same interval set unchanged. -/
theorem merge_exons_idempotent_nonneg (l : List (Int × Int))
    (hv : ∀ p ∈ l, 0 ≤ p.1 ∧ p.1 ≤ p.2)
    (hc : List.Chain' (fun a b : Int × Int => a.2 ≤ b.1) l) :
    merge_exons l = .ok (l.map Prod.fst, l.map Prod.snd) := by
  have hsort : sortPairs l = l :=
    List.Sorted.insertionSort_eq (pairwise_pairLE_of_chain (fun p hp => (hv p hp).2) hc)
  unfold merge_exons
  rw [hsort]
  cases l with
  | nil => rfl
  | cons q rest =>
    obtain ⟨s, e⟩ := q
    have hs0 : 0 ≤ s := (hv (s, e) (by simp)).1
    have hse : s ≤ e := (hv (s, e) (by simp)).2
    have hstep : mergeLoop ((s, e) :: rest) none 0 [] = mergeLoop rest (some (s, e)) e [] := by
      simp only [mergeLoop, if_neg (show ¬ s < 0 by omega)]
      rw [show (if e > 0 then e else 0) = e from by omega]
    rw [hstep, mergeLoop_already_merged rest s e []
      (fun p hp => (hv p (by simp [hp])).2) hc]
    rfl

/-- Claim C5, witness at the already-merged set `[(0, 5), (7, 9)]`. -/
theorem merge_exons_idempotent_nonneg_witness :
    (∀ p ∈ [((0 : Int), (5 : Int)), (7, 9)], 0 ≤ p.1 ∧ p.1 ≤ p.2) ∧
    List.Chain' (fun a b : Int × Int => a.2 ≤ b.1) [(0, 5), (7, 9)] ∧
    merge_exons [(0, 5), (7, 9)] = .ok ([0, 7], [5, 9]) :=
  ⟨by decide, by rw [List.chain'_cons]; exact ⟨by decide, List.chain'_singleton _⟩,
    merge_exons_idempotent_nonneg [(0, 5), (7, 9)] (by decide)
      (by rw [List.chain'_cons]; exact ⟨by decide, List.chain'_singleton _⟩)⟩

/-- Claim C2 (code bug): for a gene with an empty transcript collection,
`exons_merged` returns empty sequences as claimed, but `introns` does not:
the `merge=True` branch of `_intron_intervals_from_exons` indexes
`zip_exons[0]` on the empty list and raises `IndexError` instead of
returning an empty list. -/
theorem gene_empty_transcripts_behavior (g : Gene) (h : g.transcripts = []) :
    g.exons_merged = .ok ([], []) ∧
    g.introns = .error "IndexError: list index out of range" := by
  have hex : g._exons = [] := by simp [Gene._exons, h]
  constructor
  · show merge_exons g._exons = _
    rw [hex]
    rfl
  · unfold Gene.introns
    rw [hex]
    rfl

/-- Claim C2, witness: a concrete gene with an empty transcript list. -/
theorem gene_empty_transcripts_behavior_witness :
    emptyGene.transcripts = [] ∧
    (emptyGene.exons_merged = .ok ([], []) ∧
      emptyGene.introns = .error "IndexError: list index out of range") :=
  ⟨rfl, gene_empty_transcripts_behavior emptyGene rfl⟩

/-- Claim C3: on an ascending, non-overlapping exon list contained in
`[region_start, region_stop)`, the intron deriver returns exactly the
complementary gaps in ascending order (leading gap, one gap per consecutive
pair with space between, trailing gap); in particular region `[0,100)` with
exons `[(10,20),(50,60)]` yields `[(0,10),(20,50),(60,100)]` and a fully
covered region yields `[]`. -/
theorem intron_deriver_complement (exons : List (Int × Int))
    (region_start region_stop : Int)
    (hv : ∀ p ∈ exons, region_start ≤ p.1 ∧ p.1 ≤ p.2 ∧ p.2 ≤ region_stop)
    (hc : List.Chain' (fun a b : Int × Int => a.2 ≤ b.1) exons) :
    _intron_intervals_from_exons exons region_start region_stop
      = .ok (derivedGapsSpec region_start region_stop exons) ∧
    _intron_intervals_from_exons [(10, 20), (50, 60)] 0 100
      = .ok [(0, 10), (20, 50), (60, 100)] ∧
    _intron_intervals_from_exons [(0, 10)] 0 10 = .ok [] := by
  refine ⟨?_, by decide, by decide⟩
  show intronLoop region_stop exons region_start [] = _
  exact intronLoop_ok region_stop exons region_start [] (fun p hp => (hv p hp).2.1)
    (fun p hp => (hv p (List.mem_of_mem_head? hp)).1) hc

/-- Claim C3, witness at region `[0, 100)` with exons `[(10,20),(50,60)]`. -/
theorem intron_deriver_complement_witness :
    (∀ p ∈ [((10 : Int), (20 : Int)), (50, 60)],
      (0 : Int) ≤ p.1 ∧ p.1 ≤ p.2 ∧ p.2 ≤ 100) ∧
    _intron_intervals_from_exons [(10, 20), (50, 60)] 0 100
      = .ok (derivedGapsSpec 0 100 [(10, 20), (50, 60)]) := by
  have hc : List.Chain' (fun a b : Int × Int => a.2 ≤ b.1) [(10, 20), (50, 60)] := by
    rw [List.chain'_cons]
    exact ⟨by decide, List.chain'_singleton _⟩
  exact ⟨by decide,
    (intron_deriver_complement [(10, 20), (50, 60)] 0 100 (by decide) hc).1⟩

/-- Claim C6: called with `merge=False` on valid exons whose first start is at
or after the region start, the intron deriver raises the overlapping-exons
error exactly when some exon starts before the running cursor, i.e. exactly
when some consecutive pair of exons overlaps; in particular
`[(0,10),(5,15)]` raises and no intron result is returned. -/
theorem intron_deriver_overlap_error (exons : List (Int × Int))
    (gene_start gene_stop : Int)
    (hv : ∀ p ∈ exons, p.1 ≤ p.2)
    (hhead : ∀ p ∈ exons.head?, gene_start ≤ p.1) :
    (_intron_intervals_from_exons exons gene_start gene_stop
        = .error overlappingExonsMsg ↔
      ¬ List.Chain' (fun a b : Int × Int => a.2 ≤ b.1) exons) ∧
    _intron_intervals_from_exons [(0, 10), (5, 15)] 0 100
      = .error overlappingExonsMsg :=
  ⟨intronLoop_error_iff gene_stop exons gene_start [] hv hhead, by decide⟩

/-- Claim C6, witness at exons `[(0,10),(5,15)]`. -/
theorem intron_deriver_overlap_error_witness :
    (∀ p ∈ [((0 : Int), (10 : Int)), (5, 15)], p.1 ≤ p.2) ∧
    ((_intron_intervals_from_exons [(0, 10), (5, 15)] 0 100
        = .error overlappingExonsMsg ↔
      ¬ List.Chain' (fun a b : Int × Int => a.2 ≤ b.1) [(0, 10), (5, 15)]) ∧
     _intron_intervals_from_exons [(0, 10), (5, 15)] 0 100
        = .error overlappingExonsMsg) :=
  ⟨by decide, intron_deriver_overlap_error [(0, 10), (5, 15)] 0 100 (by decide)
    (by intro p hp; cases hp; decide)⟩

/-- Claim C7, counterexample: the merge engine does not treat an inverted
input interval as an error — `merge_exons` returns the inverted interval
`(5, 3)` unchanged instead of raising. -/
theorem merge_exons_inverted_no_error :
    ((3 : Int) < 5) ∧ merge_exons [(5, 3)] = .ok ([5], [3]) := by decide

/-- Claim C7 (amended: only the intron deriver surfaces an inverted interval
as an immediate error; the merge engine performs no such validation and
returns an inverted input interval as output). -/
theorem inverted_interval_behavior :
    (∀ (gene_start gene_stop : Int) (rest : List (Int × Int)),
      _intron_intervals_from_exons ((10, 5) :: rest) gene_start gene_stop
        = .error invertedExonMsg) ∧
    (∀ s e : Int, 0 ≤ e → e < s → merge_exons [(s, e)] = .ok ([s], [e])) := by
  constructor
  · intro gene_start gene_stop rest
    show intronLoop gene_stop ((10, 5) :: rest) gene_start [] = _
    simp only [intronLoop, if_pos (show (5 : Int) < 10 by norm_num)]
  · intro s e h0 hlt
    unfold merge_exons
    have hsort : sortPairs [(s, e)] = [(s, e)] := rfl
    rw [hsort]
    have hstep : mergeLoop [(s, e)] none 0 []
        = mergeLoop [] (some (s, e)) (if e > 0 then e else 0) [] := by
      simp only [mergeLoop, if_neg (show ¬ s < 0 by omega), List.nil_append]
    rw [hstep]
    rfl

/-- Claim C7, witness at exon `(10, 5)` and merge input `(5, 3)`. -/
theorem inverted_interval_behavior_witness :
    _intron_intervals_from_exons [(10, 5)] 0 20 = .error invertedExonMsg ∧
    (0 ≤ (3 : Int) ∧ (3 : Int) < 5) ∧ merge_exons [(5, 3)] = .ok ([5], [3]) :=
  ⟨inverted_interval_behavior.1 0 20 [], ⟨by decide, by decide⟩,
    inverted_interval_behavior.2 5 3 (by decide) (by decide)⟩

/-- Claim C8: `Transcript.introns` runs the intron deriver with
`merge=False` over the transcript's own sorted exons with the owning gene's
`(start, stop)` as region bounds: it depends only on the exon list and the
gene's bounds (not the transcript's own span), equals the complementary-gap
description relative to the gene's bounds, and reports a leading (resp.
trailing) intron anchored at the gene's start (resp. stop) when the exons do
not reach them. -/
theorem transcript_introns_gene_bounds (t : Transcript)
    (hv : ∀ p ∈ t.exons, t.gene.start ≤ p.1 ∧ p.1 ≤ p.2)
    (hc : List.Chain' (fun a b : Int × Int => a.2 ≤ b.1) t.exons) :
    Transcript.introns t
      = .ok (derivedGapsSpec t.gene.start t.gene.stop t.exons) ∧
    (∀ t' : Transcript, t'.exons = t.exons → t'.gene.start = t.gene.start →
      t'.gene.stop = t.gene.stop → Transcript.introns t' = Transcript.introns t) ∧
    (∀ s1 e1 rest, t.exons = (s1, e1) :: rest → t.gene.start < s1 →
      ∃ l, Transcript.introns t = .ok ((t.gene.start, s1) :: l)) ∧
    (∀ front sl el, t.exons = front ++ [(sl, el)] → el < t.gene.stop →
      ∃ l, Transcript.introns t = .ok l ∧ (el, t.gene.stop) ∈ l) := by
  have hsort : sortPairs t.exons = t.exons :=
    List.Sorted.insertionSort_eq
      (pairwise_pairLE_of_chain (fun p hp => (hv p hp).2) hc)
  have hmain : Transcript.introns t
      = .ok (derivedGapsSpec t.gene.start t.gene.stop t.exons) := by
    show _intron_intervals_from_exons (sortPairs t.exons) t.gene.start t.gene.stop = _
    rw [hsort]
    show intronLoop t.gene.stop t.exons t.gene.start [] = _
    exact intronLoop_ok t.gene.stop t.exons t.gene.start [] (fun p hp => (hv p hp).2)
      (fun p hp => (hv p (List.mem_of_mem_head? hp)).1) hc
  refine ⟨hmain, ?_, ?_, ?_⟩
  · intro t' h1 h2 h3
    show _intron_intervals_from_exons (sortPairs t'.exons) t'.gene.start t'.gene.stop
        = Transcript.introns t
    rw [h1, h2, h3]
    rfl
  · intro s1 e1 rest hx hlt
    refine ⟨derivedGapsSpec e1 t.gene.stop rest, ?_⟩
    rw [hmain, hx]
    simp only [derivedGapsSpec, if_pos hlt, List.singleton_append]
  · intro front sl el hx hlt
    refine ⟨derivedGapsSpec t.gene.start t.gene.stop t.exons, hmain, ?_⟩
    rw [hx]
    exact derivedGapsSpec_trailing t.gene.stop front t.gene.start sl el hlt

/-- Claim C8, witness: a transcript spanning `[10, 60]` whose gene spans
`[0, 100]` reports the leading intron `(0, 10)` and the trailing intron
`(60, 100)` anchored at the gene's bounds. -/
theorem transcript_introns_gene_bounds_witness :
    (∀ p ∈ exampleTranscript.exons,
      exampleTranscript.gene.start ≤ p.1 ∧ p.1 ≤ p.2) ∧
    List.Chain' (fun a b : Int × Int => a.2 ≤ b.1) exampleTranscript.exons ∧
    Transcript.introns exampleTranscript
      = .ok (derivedGapsSpec exampleTranscript.gene.start
          exampleTranscript.gene.stop exampleTranscript.exons) := by
  have hc : List.Chain' (fun a b : Int × Int => a.2 ≤ b.1) exampleTranscript.exons := by
    show List.Chain' (fun a b : Int × Int => a.2 ≤ b.1) [(10, 20), (50, 60)]
    rw [List.chain'_cons]
    exact ⟨by decide, List.chain'_singleton _⟩
  exact ⟨by decide, hc,
    (transcript_introns_gene_bounds exampleTranscript (by decide) hc).1⟩

/-- Claim C9, counterexample: `merge_exons` sorts the caller's list in place
(`exons.sort()`), so after a call on `[(5, 6), (0, 1)]` the caller's list
holds `[(0, 1), (5, 6)]`: its element order is not the same as before the
call. -/
theorem merge_exons_mutates_input_order :
    merge_exons_post [(5, 6), (0, 1)] = [(0, 1), (5, 6)] ∧
    [((5 : Int), (6 : Int)), (0, 1)] ≠ [(0, 1), (5, 6)] := by decide

/-- Claim C9 (amended: the merge operation computes its result without
side effects other than sorting the caller's input list in place; after the
call the caller's sequence holds the same elements — the multiset is
preserved — reordered ascending). -/
theorem merge_exons_post_spec (exons : List (Int × Int)) :
    (merge_exons_post exons).Perm exons ∧
    List.Pairwise pairLE (merge_exons_post exons) :=
  ⟨sortPairs_perm exons, sortPairs_sorted exons⟩

/-- Claim C10: for a transcript whose exon list is empty, `introns` returns
the single interval covering the owning gene's whole span when
`gene.start < gene.stop`, and the empty list when the bounds coincide,
without error. -/
theorem transcript_empty_exons_introns (t : Transcript) (h : t.exons = []) :
    (t.gene.start < t.gene.stop →
      Transcript.introns t = .ok [(t.gene.start, t.gene.stop)]) ∧
    (t.gene.start = t.gene.stop → Transcript.introns t = .ok []) := by
  have hbase : Transcript.introns t = intronLoop t.gene.stop [] t.gene.start [] := by
    show _intron_intervals_from_exons (sortPairs t.exons) t.gene.start t.gene.stop = _
    rw [h]
    rfl
  constructor
  · intro hlt
    rw [hbase]
    simp only [intronLoop, if_pos hlt, List.nil_append]
  · intro heq
    rw [hbase]
    simp only [intronLoop, if_neg (show ¬ t.gene.start < t.gene.stop by omega)]

/-- Claim C10, witness: a transcript with no exons of a gene spanning
`[0, 100]`. -/
theorem transcript_empty_exons_introns_witness :
    emptyExonTranscript.exons = [] ∧
    emptyExonTranscript.gene.start < emptyExonTranscript.gene.stop ∧
    Transcript.introns emptyExonTranscript
      = .ok [(emptyExonTranscript.gene.start, emptyExonTranscript.gene.stop)] :=
  ⟨rfl, by decide,
    (transcript_empty_exons_introns emptyExonTranscript rfl).1 (by decide)⟩


end MbfGenomes
